import Mathlib

/-!
# Archive ingestion pipeline of `handlers/prices.go`

A shallow embedding of `UploadPrices`, `processZip`, `processTar` and
`processArchive`.

* Library objects are modelled at their interface.  A `csv.Reader` over a member
  is the finite sequence of results its `Read` gives, followed by what it answers
  for ever afterwards (`io.EOF`, or a persistent read error as a truncated member
  gives).  A `tar.Reader` is the scripted sequence of results of `Next`.  A zip
  directory is the list of its entries.
* The data store is a `Store`: the outcome of `Begin`, of each `Exec`, of `Commit`.
* Every effect on the file system or the store is recorded in a trace of `Event`s.
* `float64` is an arbitrary type `F` with a zero and an addition, and
  `strconv.ParseFloat` an arbitrary function `String → Option F`; nothing is
  assumed about either.
* The unbounded `for` loops take fuel; `none` means the fuel ran out.
-/

namespace Prices

/-- Error values, identified with their message. -/
abbrev Err := String

/-! ## Strings: `strings.ToLower`, `strings.HasSuffix`, `filepath.Ext` -/

/-- Lowercasing as in `strings.ToLower`.  Only the letters `C`, `S`, `V` lowercase to
`c`, `s`, `v`, so on the test `HasSuffix(ToLower(name), ".csv")` the ASCII mapping
and the Unicode one agree. -/
def ToLower (s : String) : String := String.mk (s.toList.map Char.toLower)

/-- Suffix test `strings.HasSuffix`. -/
def HasSuffix (s suffix : String) : Bool := suffix.toList.isSuffixOf s.toList

/-- Loop of `filepath.Ext` from the last character backwards: `rev` is what is left of
the path, reversed, and `acc` the characters already passed. -/
def extAux : List Char → List Char → List Char
  | [], _ => []
  | c :: rev, acc =>
    if c = '/' then []
    else if c = '.' then '.' :: acc
    else extAux rev (c :: acc)

/-- Extension `filepath.Ext`: the suffix that starts at the last dot of the last path
element, empty when there is none. -/
def Ext (path : String) : String := String.mk (extAux path.toList.reverse [])

/-- Filter of both iterator closures: `strings.HasSuffix(strings.ToLower(name), ".csv")`. -/
def isCsvName (name : String) : Bool := HasSuffix (ToLower name) ".csv"

/-! ## CSV reader -/

/-- One scripted result of `csvReader.Read` before the end of the member. -/
inductive RowRead where
  | record (fields : List String)
  | readErr (e : Err)
  deriving DecidableEq

/-- What `csvReader.Read` answers once the rows are used up, on every later call. -/
inductive StreamEnd where
  | eof
  | sticky (e : Err)
  deriving DecidableEq

/-- A `csv.Reader` over one member stream. -/
structure CsvStream where
  rows : List RowRead
  ending : StreamEnd
  deriving DecidableEq

/-- Result of one call of `csvReader.Read`. -/
inductive CsvRead where
  | record (fields : List String)
  | eof
  | err (e : Err)
  deriving DecidableEq

/-- One call of `csvReader.Read`: the result and the reader afterwards. -/
def CsvStream.read (s : CsvStream) : CsvRead × CsvStream :=
  match s.rows with
  | RowRead.record fields :: rest => (CsvRead.record fields, { s with rows := rest })
  | RowRead.readErr e :: rest => (CsvRead.err e, { s with rows := rest })
  | [] =>
    match s.ending with
    | StreamEnd.eof => (CsvRead.eof, s)
    | StreamEnd.sticky e => (CsvRead.err e, s)

/-! ## Store, effects -/

/-- Parameters of one `INSERT INTO prices (name, category, price, create_date)`. -/
structure Insert (F : Type) where
  name : String
  category : String
  price : F
  createDate : String
  deriving DecidableEq

/-- Effects of an iterator closure: `header.Open()` on a zip entry, `tarReader.Next()`. -/
inductive IterEvent where
  | zipOpen (name : String)
  | tarNext
  deriving DecidableEq

/-- Effects, in the order the code performs them. -/
inductive Event (F : Type) where
  | osCreate
  | ioCopy
  | osOpen
  | fileStat
  | zipNewReader
  | iter (e : IterEvent)
  | txBegin
  | txExec (ins : Insert F)
  | txCommit
  | txRollback
  deriving DecidableEq

/-- The data store as seen by one pass: the error of `Begin`, of the `k`-th `Exec`
(counted from 0) with given parameters, and of `Commit`; `none` is success. -/
structure Store (F : Type) where
  beginErr : Option Err
  execErr : Nat → Insert F → Option Err
  commitErr : Option Err

/-! ## Iterators -/

/-- Result of one call of the closure `nextFile`. -/
inductive NextFile where
  | member (reader : CsvStream) (name : String)
  | eof
  | error (e : Err)
  deriving DecidableEq

/-- One call of an iterator closure with captured state `ι`: the result, the effects
of the call and the captured state afterwards. -/
structure Step (ι : Type) where
  res : NextFile
  events : List IterEvent
  state : ι

/-- An entry of a zip directory: its name and the result of `header.Open()`. -/
structure ZipEntry where
  name : String
  content : Except Err CsvStream

/-- Captured state of the closure in `processZip`: `zipReader.File` and the cursor `i`. -/
structure ZipIter where
  files : List ZipEntry
  i : Nat

/-- The `for ; i < len(zipReader.File); i++` loop of the zip closure; `rest` is
`zipReader.File[i:]`. -/
def zipScan (files : List ZipEntry) : List ZipEntry → Nat → Step ZipIter
  | [], i => ⟨NextFile.eof, [], ⟨files, i⟩⟩
  | header :: rest, i =>
    if isCsvName header.name then
      match header.content with
      | Except.error e => ⟨NextFile.error e, [IterEvent.zipOpen header.name], ⟨files, i⟩⟩
      | Except.ok rc => ⟨NextFile.member rc header.name, [IterEvent.zipOpen header.name], ⟨files, i + 1⟩⟩
    else zipScan files rest (i + 1)

/-- The closure passed to `processArchive` by `processZip`. -/
def zipNext (it : ZipIter) : Step ZipIter :=
  zipScan it.files (it.files.drop it.i) it.i

/-- One scripted result of `tarReader.Next`. -/
inductive TarStep where
  | header (name : String) (content : CsvStream)
  | eof
  | fail (e : Err)

/-- Captured state of the closure in `processTar`: the results `tarReader.Next` has
still to give (after them it gives `io.EOF`) and the flag `foundEOF`. -/
structure TarIter where
  pending : List TarStep
  foundEOF : Bool

/-- The `for` loop of the tar closure: calls of `tarReader.Next` until the end, an
error or a matching header. -/
def tarScan : List TarStep → List IterEvent → Step TarIter
  | [], evs => ⟨NextFile.eof, evs ++ [IterEvent.tarNext], ⟨[], true⟩⟩
  | TarStep.eof :: rest, evs => ⟨NextFile.eof, evs ++ [IterEvent.tarNext], ⟨rest, true⟩⟩
  | TarStep.fail e :: rest, evs => ⟨NextFile.error e, evs ++ [IterEvent.tarNext], ⟨rest, false⟩⟩
  | TarStep.header name content :: rest, evs =>
    if isCsvName name then
      ⟨NextFile.member content name, evs ++ [IterEvent.tarNext], ⟨rest, false⟩⟩
    else tarScan rest (evs ++ [IterEvent.tarNext])

/-- The closure passed to `processArchive` by `processTar`. -/
def tarNext (it : TarIter) : Step TarIter :=
  if it.foundEOF then ⟨NextFile.eof, [], it⟩
  else tarScan it.pending []

/-- State of an iterator after `n` calls. -/
def afterCalls {ι : Type} (next : ι → Step ι) : Nat → ι → ι
  | 0, it => it
  | n + 1, it => afterCalls next n (next it).state

/-- Successive calls of an iterator up to the first `io.EOF`: the members returned and
the effects of all these calls.  `none` when an error comes first or the fuel runs
out. -/
def drain {ι : Type} (next : ι → Step ι) :
    Nat → ι → Option (List (String × CsvStream) × List IterEvent)
  | 0, _ => none
  | n + 1, it =>
    match (next it).res with
    | NextFile.eof => some ([], (next it).events)
    | NextFile.error _ => none
    | NextFile.member reader name =>
      match drain next n (next it).state with
      | none => none
      | some (ms, evs) => some ((name, reader) :: ms, (next it).events ++ evs)

/-! ## `processArchive` -/

/-- Local variables of `processArchive` during the loops, and the trace so far. -/
structure LoopState (F : Type) where
  items : Nat
  categories : List String
  totalPrice : F
  execs : Nat
  trace : List (Event F)

/-- How a loop ends: normally, or by a `return 0, nil, 0, err` from inside it. -/
inductive LoopResult (F : Type) where
  | done (st : LoopState F)
  | fatal (e : Err) (st : LoopState F)

/-- Assignment `categories[c] = true` on the key set of the map. -/
def addCategory (cats : List String) (c : String) : List String :=
  if c ∈ cats then cats else cats ++ [c]

section Pipeline

variable {F : Type} [Zero F] [Add F]

/-- The row loop of `processArchive` (lines 199-231). -/
def rowLoop (parseFloat : String → Option F) (store : Store F) :
    Nat → CsvStream → LoopState F → Option (LoopResult F)
  | 0, _, _ => none
  | fuel + 1, csvReader, st =>
    match csvReader.read with
    | (CsvRead.eof, _) => some (LoopResult.done st)
    | (CsvRead.err _, csvReader) => rowLoop parseFloat store fuel csvReader st
    | (CsvRead.record record, csvReader) =>
      if record.length < 5 then rowLoop parseFloat store fuel csvReader st
      else
        match parseFloat (record.getD 3 "") with
        | none => rowLoop parseFloat store fuel csvReader st
        | some price =>
          let ins : Insert F := ⟨record.getD 1 "", record.getD 2 "", price, record.getD 4 ""⟩
          let st2 : LoopState F :=
            { items := st.items + 1
              categories := addCategory st.categories (record.getD 2 "")
              totalPrice := st.totalPrice + price
              execs := st.execs + 1
              trace := st.trace ++ [Event.txExec ins] }
          match store.execErr st.execs ins with
          | some execErr => some (LoopResult.fatal ("ошибка записи в базу данных: " ++ execErr) st2)
          | none => rowLoop parseFloat store fuel csvReader st2

/-- The member loop of `processArchive` (lines 179-232). -/
def memberLoop {ι : Type} (parseFloat : String → Option F) (store : Store F)
    (nextFile : ι → Step ι) : Nat → ι → LoopState F → Option (LoopResult F)
  | 0, _, _ => none
  | fuel + 1, it, st =>
    let step := nextFile it
    let st : LoopState F := { st with trace := st.trace ++ step.events.map Event.iter }
    match step.res with
    | NextFile.eof => some (LoopResult.done st)
    | NextFile.error err =>
      some (LoopResult.fatal ("ошибка получения следующего файла: " ++ err) st)
    | NextFile.member reader name =>
      if Ext name ≠ ".csv" then memberLoop parseFloat store nextFile fuel step.state st
      else
        match reader.read with
        | (CsvRead.record _, csvReader) =>
          match rowLoop parseFloat store fuel csvReader st with
          | none => none
          | some (LoopResult.fatal e st) => some (LoopResult.fatal e st)
          | some (LoopResult.done st) => memberLoop parseFloat store nextFile fuel step.state st
        | (_, _) => memberLoop parseFloat store nextFile fuel step.state st

/-- The deferred function of `processArchive` (lines 163-177) without its `recover`
branch: `err` is the variable declared on line 159.  It gives the effects and the new
value of that variable. -/
def deferred (store : Store F) (err : Option Err) : List (Event F) × Option Err :=
  match err with
  | some e => ([Event.txRollback], some e)
  | none =>
    match store.commitErr with
    | some commitErr => ([Event.txCommit], some commitErr)
    | none => ([Event.txCommit], none)

/-- What a call returns, `(int, map[string]bool, float64, error)`, and its trace.  A
`nil` map is the empty key set. -/
structure Outcome (F : Type) where
  items : Nat
  categories : List String
  totalPrice : F
  err : Option Err
  trace : List (Event F)
  deriving DecidableEq

/-- The function `processArchive`.  The variable `err` of line 159 is the one the
deferred function reads; the loops declare their own `err` (lines 180 and 200, `:=`)
and assign only to those, so after the check of line 160 the outer one is not
written before the deferred function runs.  The results are unnamed: the operands of
the `return` that ended the loops are what the caller gets, evaluated before the
deferred function runs. -/
def processArchive {ι : Type} (parseFloat : String → Option F) (store : Store F)
    (nextFile : ι → Step ι) (fuel : Nat) (it : ι) : Option (Outcome F) :=
  let err := store.beginErr
  match err with
  | some e => some ⟨0, [], 0, some ("ошибка начала транзакции: " ++ e), [Event.txBegin]⟩
  | none =>
    match memberLoop parseFloat store nextFile fuel it ⟨0, [], 0, 0, [Event.txBegin]⟩ with
    | none => none
    | some (LoopResult.fatal e st) =>
      some ⟨0, [], 0, some e, st.trace ++ (deferred store err).1⟩
    | some (LoopResult.done st) =>
      some ⟨st.items, st.categories, st.totalPrice, none, st.trace ++ (deferred store err).1⟩

/-! ## `processZip`, `processTar`, `UploadPrices` -/

/-- What `processZip` finds at `filePath`: the error of `os.Open`, of `file.Stat`, and
the directory `zip.NewReader` reads or its error. -/
structure ZipFile where
  openErr : Option Err
  statErr : Option Err
  directory : Except Err (List ZipEntry)

/-- What `processTar` finds at `filePath`: the error of `os.Open` and the results of
the `tar.Reader` over the file. -/
structure TarFile where
  openErr : Option Err
  steps : List TarStep

/-- Prefix the trace of a call with the effects that came before it. -/
def withPrefix (evs : List (Event F)) (r : Option (Outcome F)) : Option (Outcome F) :=
  r.map fun out => { out with trace := evs ++ out.trace }

/-- The function `processZip`. -/
def processZip (parseFloat : String → Option F) (store : Store F) (fuel : Nat)
    (file : ZipFile) : Option (Outcome F) :=
  match file.openErr with
  | some err => some ⟨0, [], 0, some err, [Event.osOpen]⟩
  | none =>
    match file.statErr with
    | some err => some ⟨0, [], 0, some err, [Event.osOpen, Event.fileStat]⟩
    | none =>
      match file.directory with
      | Except.error err =>
        some ⟨0, [], 0, some err, [Event.osOpen, Event.fileStat, Event.zipNewReader]⟩
      | Except.ok files =>
        withPrefix [Event.osOpen, Event.fileStat, Event.zipNewReader]
          (processArchive parseFloat store zipNext fuel ⟨files, 0⟩)

/-- The function `processTar`. -/
def processTar (parseFloat : String → Option F) (store : Store F) (fuel : Nat)
    (file : TarFile) : Option (Outcome F) :=
  match file.openErr with
  | some err => some ⟨0, [], 0, some err, [Event.osOpen]⟩
  | none =>
    withPrefix [Event.osOpen] (processArchive parseFloat store tarNext fuel ⟨file.steps, false⟩)

/-- A request to `UploadPrices` with what the handler finds around it: the query
value `type`, the errors of `r.FormFile`, `os.Create` and `io.Copy`, and the
uploaded bytes as `processZip` and as `processTar` read them back. -/
structure Upload where
  typeParam : String
  formFileErr : Option Err
  createErr : Option Err
  copyErr : Option Err
  asZip : ZipFile
  asTar : TarFile

/-- The answer of `UploadPrices`: the status, the `Response` body of a success
(`total_items`, `total_categories`, `total_price`) and the trace. -/
structure HttpResult (F : Type) where
  status : Nat
  body : Option (Nat × Nat × F)
  trace : List (Event F)
  deriving DecidableEq

/-- The handler `UploadPrices`. -/
def UploadPrices (parseFloat : String → Option F) (store : Store F) (fuel : Nat)
    (r : Upload) : Option (HttpResult F) :=
  let archiveType := if r.typeParam = "" then "zip" else r.typeParam
  match r.formFileErr with
  | some _ => some ⟨400, none, []⟩
  | none =>
    match r.createErr with
    | some _ => some ⟨500, none, [Event.osCreate]⟩
    | none =>
      match r.copyErr with
      | some _ => some ⟨500, none, [Event.osCreate, Event.ioCopy]⟩
      | none =>
        let respond : Option (Outcome F) → Option (HttpResult F) := fun res =>
          match res with
          | none => none
          | some out =>
            match out.err with
            | some _ => some ⟨500, none, [Event.osCreate, Event.ioCopy] ++ out.trace⟩
            | none =>
              some ⟨200, some (out.items, out.categories.length, out.totalPrice),
                [Event.osCreate, Event.ioCopy] ++ out.trace⟩
        if archiveType = "zip" then respond (processZip parseFloat store fuel r.asZip)
        else if archiveType = "tar" then respond (processTar parseFloat store fuel r.asTar)
        else some ⟨400, none, [Event.osCreate, Event.ioCopy]⟩

end Pipeline

/-! ## Reference: the accepted rows and what is issued for them -/

section Reference

variable {F : Type}

/-- Rules of the record validator on one result of the tokenizer: the row tokenizes,
has at least 5 fields and its field 3 parses as a float.  An accepted row is kept
with its parsed price. -/
def acceptRow (parseFloat : String → Option F) : RowRead → Option (List String × F)
  | RowRead.readErr _ => none
  | RowRead.record fields =>
    if 5 ≤ fields.length then
      match parseFloat (fields.getD 3 "") with
      | some price => some (fields, price)
      | none => none
    else none

/-- Rows after the header of a member the iterator returned, when the member is
parsed: its extension is `.csv` and its first row, the header, tokenizes. -/
def parsedRows (m : String × CsvStream) : Option (List RowRead) :=
  if Ext m.1 = ".csv" then
    match m.2.rows with
    | RowRead.record _ :: rest => some rest
    | _ => none
  else none

/-- Accepted rows of one member the iterator returned: the accepted ones among the
rows after the header, in file order, when the member is parsed. -/
def acceptedOfMember (parseFloat : String → Option F) (m : String × CsvStream) :
    List (List String × F) :=
  match parsedRows m with
  | some rest => rest.filterMap (acceptRow parseFloat)
  | none => []

/-- Accepted rows of a sequence of members, in yield order. -/
def acceptedRows (parseFloat : String → Option F) :
    List (String × CsvStream) → List (List String × F)
  | [] => []
  | m :: ms => acceptedOfMember parseFloat m ++ acceptedRows parseFloat ms

/-- The insert of an accepted row: field 1 as name, field 2 as category, the parsed
field 3 as price, field 4 as create_date. -/
def insertOf (r : List String × F) : Insert F :=
  ⟨r.1.getD 1 "", r.1.getD 2 "", r.2, r.1.getD 4 ""⟩

/-- The insert statements of a trace, in order. -/
def insertsOf : List (Event F) → List (Insert F)
  | [] => []
  | Event.txExec ins :: evs => ins :: insertsOf evs
  | _ :: evs => insertsOf evs

/-- The effects a pass can have after `Begin`: those of the iterator (a member open, a
`tarReader.Next`), an insert, and the `Commit` or `Rollback` that ends it. -/
def Event.inPass : Event F → Bool
  | Event.iter _ => true
  | Event.txExec _ => true
  | Event.txCommit => true
  | Event.txRollback => true
  | _ => false

/-- Left-to-right sum of the parsed prices, from 0. -/
def sumPrices [Zero F] [Add F] (rows : List (List String × F)) : F :=
  rows.foldl (fun total r => total + r.2) 0

/-- Longest row script among some members. -/
def maxRows : List (String × CsvStream) → Nat
  | [] => 0
  | m :: ms => max m.2.rows.length (maxRows ms)

/-- The counters of a pass and the inserts it issued. -/
structure Totals (F : Type) where
  items : Nat
  categories : List String
  totalPrice : F
  inserts : List (Insert F)

/-- The counters after one more accepted row. -/
def Totals.add [Add F] (t : Totals F) (r : List String × F) : Totals F :=
  ⟨t.items + 1, addCategory t.categories (r.1.getD 2 ""), t.totalPrice + r.2,
    t.inserts ++ [insertOf r]⟩

/-- The counters held in a loop state. -/
def totalsOf (st : LoopState F) : Totals F :=
  ⟨st.items, st.categories, st.totalPrice, insertsOf st.trace⟩

/-- The loop state after the statements of lines 220-222 and the `Exec` of an
accepted row. -/
def LoopState.accept [Add F] (st : LoopState F) (r : List String × F) : LoopState F :=
  { items := st.items + 1
    categories := addCategory st.categories (r.1.getD 2 "")
    totalPrice := st.totalPrice + r.2
    execs := st.execs + 1
    trace := st.trace ++ [Event.txExec (insertOf r)] }

/-- The loop state after a call of the iterator with the given effects. -/
def LoopState.log (st : LoopState F) (evs : List IterEvent) : LoopState F :=
  { st with trace := st.trace ++ evs.map Event.iter }

/-- The loop state a loop ended in. -/
def LoopResult.state : LoopResult F → LoopState F
  | LoopResult.done st => st
  | LoopResult.fatal _ st => st

end Reference

/-! ## Sample inputs -/

/-- Value of a string of decimal digits, read from the left. -/
def digitsValue : List Char → Nat → Option Nat
  | [], n => some n
  | c :: cs, n => if c.isDigit then digitsValue cs (10 * n + (c.toNat - 48)) else none

/-- Stand-in for `strconv.ParseFloat` on unsigned integer literals, where the float it gives is
that integer; any other string is taken as unparseable. -/
def parseDigits (s : String) : Option Nat :=
  match s.toList with
  | [] => none
  | cs => digitsValue cs 0

/-- A store on which every call succeeds. -/
def okStore : Store Nat := ⟨none, fun _ _ => none, none⟩

/-- A store on which every `Exec` fails. -/
def execFailStore : Store Nat := ⟨none, fun _ _ => some "pq: value too long", none⟩

/-- A store on which `Commit` fails. -/
def commitFailStore : Store Nat := ⟨none, fun _ _ => none, some "driver: bad connection"⟩

/-- The header row. -/
def headerRow : RowRead := RowRead.record ["id", "name", "category", "price", "create_date"]

/-- A well-formed row. -/
def widgetRow : RowRead := RowRead.record ["1", "Widget", "Tools", "10", "2023-01-01"]

/-- Second well-formed row. -/
def gadgetRow : RowRead := RowRead.record ["2", "Gadget", "Toys", "19", "2023-01-02"]

/-- Insert of `widgetRow`. -/
def widgetInsert : Insert Nat := ⟨"Widget", "Tools", 10, "2023-01-01"⟩

/-- Insert of `gadgetRow`. -/
def gadgetInsert : Insert Nat := ⟨"Gadget", "Toys", 19, "2023-01-02"⟩

/-- A member with a header, a short row, a row with a bad price and two good rows. -/
def mixedCsv : CsvStream :=
  ⟨[headerRow, RowRead.record ["3", "Bad", "Row"], widgetRow, RowRead.readErr "bare quote",
    RowRead.record ["4", "Thing", "Tools", "abc", "2023-01-03"], gadgetRow], StreamEnd.eof⟩

/-- A member with a header and one good row. -/
def oneRowCsv : CsvStream := ⟨[headerRow, widgetRow], StreamEnd.eof⟩

/-- A member cut short after its header: every later read fails. -/
def truncatedCsv : CsvStream := ⟨[headerRow], StreamEnd.sticky "unexpected EOF"⟩

/-- A zip archive whose only member `a.csv` has a header and one good row. -/
def oneRowZip : ZipFile := ⟨none, none, Except.ok [⟨"a.csv", Except.ok oneRowCsv⟩]⟩

/-- A tar archive with `a.csv` (a header and one good row) followed by a corrupt
header block. -/
def brokenTar : TarFile :=
  ⟨none, [TarStep.header "a.csv" oneRowCsv, TarStep.fail "archive/tar: invalid tar header"]⟩

/-- A zip archive whose only member is named `A.CSV`. -/
def upperZip : ZipFile := ⟨none, none, Except.ok [⟨"A.CSV", Except.ok oneRowCsv⟩]⟩

/-- A tar archive whose only member is named `prices.Csv`. -/
def mixedCaseTar : TarFile := ⟨none, [TarStep.header "prices.Csv" oneRowCsv]⟩

/-- A file that is not a zip archive. -/
def malformedZip : ZipFile := ⟨none, none, Except.error "zip: not a valid zip file"⟩

/-- A tar archive whose member `a.csv` is cut short after the header row. -/
def truncatedTar : TarFile := ⟨none, [TarStep.header "a.csv" truncatedCsv]⟩

/-- A zip archive whose member `a.csv` has a damaged stream after the header row. -/
def truncatedZip : ZipFile := ⟨none, none, Except.ok [⟨"a.csv", Except.ok truncatedCsv⟩]⟩

/-- A zip directory with a text file, two members the pipeline parses and one it
does not. -/
def sampleEntries : List (String × CsvStream) :=
  [("notes.txt", oneRowCsv), ("a.csv", mixedCsv), ("B.CSV", oneRowCsv), ("dir/b.csv", oneRowCsv)]

/-- The zip directory of `sampleEntries`, every `Open` succeeding. -/
def sampleFiles : List ZipEntry := sampleEntries.map fun p => ⟨p.1, Except.ok p.2⟩

/-- The members the zip iterator returns on `sampleFiles`. -/
def sampleMembers : List (String × CsvStream) :=
  [("a.csv", mixedCsv), ("B.CSV", oneRowCsv), ("dir/b.csv", oneRowCsv)]

/-- The effects of the zip iterator on `sampleFiles`. -/
def sampleOpens : List IterEvent :=
  [IterEvent.zipOpen "a.csv", IterEvent.zipOpen "B.CSV", IterEvent.zipOpen "dir/b.csv"]

/-- A request with `type=x/y`: the temporary file `temp.x/y` cannot be created. -/
def slashUpload : Upload :=
  ⟨"x/y", none, some "open temp.x/y: no such file or directory", none, oneRowZip, brokenTar⟩

/-- A request with `type=rar` whose upload is stored. -/
def rarUpload : Upload := ⟨"rar", none, none, none, oneRowZip, brokenTar⟩

/-- A zip directory without a `.csv` entry, the cursor at its start. -/
def textOnlyZip : ZipIter :=
  ⟨[⟨"notes.txt", Except.ok oneRowCsv⟩, ⟨"readme.md", Except.error "checksum error"⟩], 0⟩

/-- A tar file that cannot be opened. -/
def missingTar : TarFile := ⟨some "open temp.tar: no such file or directory", []⟩

/-- A tar reader whose `Next` would fail after it has reported the end. -/
def failAfterEndTar : TarIter := ⟨[TarStep.eof, TarStep.fail "read error"], false⟩

/-! ## The CSV reader and the record validator -/

theorem read_record (fields : List String) (rest : List RowRead) (e : StreamEnd) :
    CsvStream.read ⟨RowRead.record fields :: rest, e⟩ = (CsvRead.record fields, ⟨rest, e⟩) :=
  rfl

theorem read_readErr (x : Err) (rest : List RowRead) (e : StreamEnd) :
    CsvStream.read ⟨RowRead.readErr x :: rest, e⟩ = (CsvRead.err x, ⟨rest, e⟩) :=
  rfl

theorem read_nil_eof :
    CsvStream.read ⟨[], StreamEnd.eof⟩ = (CsvRead.eof, ⟨[], StreamEnd.eof⟩) :=
  rfl

theorem read_nil_sticky (x : Err) :
    CsvStream.read ⟨[], StreamEnd.sticky x⟩ = (CsvRead.err x, ⟨[], StreamEnd.sticky x⟩) :=
  rfl

section Basic

variable {F : Type}

theorem insertsOf_append (a b : List (Event F)) :
    insertsOf (a ++ b) = insertsOf a ++ insertsOf b := by
  induction a with
  | nil => rfl
  | cons e a ih => cases e <;> simp [insertsOf, ih]

theorem insertsOf_iter (evs : List IterEvent) :
    insertsOf (evs.map (Event.iter : IterEvent → Event F)) = [] := by
  induction evs with
  | nil => rfl
  | cons e evs ih => simpa [insertsOf] using ih

theorem acceptRow_short (parseFloat : String → Option F) (fields : List String)
    (h : fields.length < 5) : acceptRow parseFloat (RowRead.record fields) = none := by
  have h5 : ¬ 5 ≤ fields.length := by omega
  simp only [acceptRow, h5, if_false]

theorem acceptRow_bad (parseFloat : String → Option F) (fields : List String)
    (h : ¬ fields.length < 5) (hp : parseFloat (fields.getD 3 "") = none) :
    acceptRow parseFloat (RowRead.record fields) = none := by
  have h5 : 5 ≤ fields.length := by omega
  simp only [acceptRow, h5, if_true, hp]

theorem acceptRow_ok (parseFloat : String → Option F) (fields : List String) (price : F)
    (h : ¬ fields.length < 5) (hp : parseFloat (fields.getD 3 "") = some price) :
    acceptRow parseFloat (RowRead.record fields) = some (fields, price) := by
  have h5 : 5 ≤ fields.length := by omega
  simp only [acceptRow, h5, if_true, hp]

theorem totalsOf_log (st : LoopState F) (evs : List IterEvent) :
    totalsOf (st.log evs) = totalsOf st := by
  simp only [totalsOf, LoopState.log, insertsOf_append, insertsOf_iter, List.append_nil]

theorem acceptedRows_cons_none (parseFloat : String → Option F) (m : String × CsvStream)
    (ms : List (String × CsvStream)) (h : parsedRows m = none) :
    acceptedRows parseFloat (m :: ms) = acceptedRows parseFloat ms := by
  simp only [acceptedRows, acceptedOfMember, h, List.nil_append]

theorem acceptedRows_cons_some (parseFloat : String → Option F) (m : String × CsvStream)
    (ms : List (String × CsvStream)) (rest : List RowRead) (h : parsedRows m = some rest) :
    acceptedRows parseFloat (m :: ms)
      = rest.filterMap (acceptRow parseFloat) ++ acceptedRows parseFloat ms := by
  simp only [acceptedRows, acceptedOfMember, h]

theorem withPrefix_eq_some (evs : List (Event F)) (r : Option (Outcome F)) (out : Outcome F)
    (h : withPrefix evs r = some out) :
    ∃ inner, r = some inner ∧ out = { inner with trace := evs ++ inner.trace } := by
  cases r with
  | none => cases h
  | some inner =>
    simp only [withPrefix, Option.map_some', Option.some.injEq] at h
    exact ⟨inner, rfl, h.symm⟩

end Basic

/-! ## The row loop -/

section Rows

variable {F : Type} [Add F]

theorem rowLoop_zero (parseFloat : String → Option F) (store : Store F) (s : CsvStream)
    (st : LoopState F) : rowLoop parseFloat store 0 s st = none := by
  simp only [rowLoop]

theorem rowLoop_nil_eof (parseFloat : String → Option F) (store : Store F) (fuel : Nat)
    (st : LoopState F) :
    rowLoop parseFloat store (fuel + 1) ⟨[], StreamEnd.eof⟩ st = some (LoopResult.done st) := by
  simp only [rowLoop, read_nil_eof]

theorem rowLoop_nil_sticky (parseFloat : String → Option F) (store : Store F) (fuel : Nat)
    (x : Err) (st : LoopState F) :
    rowLoop parseFloat store (fuel + 1) ⟨[], StreamEnd.sticky x⟩ st
      = rowLoop parseFloat store fuel ⟨[], StreamEnd.sticky x⟩ st := by
  simp only [rowLoop, read_nil_sticky]

/-- One turn of the row loop on a scripted row, by the verdict of the validator. -/
theorem rowLoop_cons (parseFloat : String → Option F) (store : Store F) (fuel : Nat)
    (r : RowRead) (rest : List RowRead) (e : StreamEnd) (st : LoopState F) :
    rowLoop parseFloat store (fuel + 1) ⟨r :: rest, e⟩ st =
      match acceptRow parseFloat r with
      | none => rowLoop parseFloat store fuel ⟨rest, e⟩ st
      | some row =>
        match store.execErr st.execs (insertOf row) with
        | some x => some (LoopResult.fatal ("ошибка записи в базу данных: " ++ x) (st.accept row))
        | none => rowLoop parseFloat store fuel ⟨rest, e⟩ (st.accept row) := by
  cases r with
  | readErr x => simp only [rowLoop, read_readErr, acceptRow]
  | record fields =>
    simp only [rowLoop, read_record]
    by_cases hlen : fields.length < 5
    · simp only [hlen, if_true, acceptRow_short parseFloat fields hlen]
    · simp only [hlen, if_false]
      cases hp : parseFloat (fields.getD 3 "") with
      | none => simp only [acceptRow_bad parseFloat fields hlen hp]
      | some price =>
        simp only [acceptRow_ok parseFloat fields price hlen hp]
        rfl

/-- A reader that fails on every call keeps the row loop turning: no fuel is enough. -/
theorem rowLoop_sticky (parseFloat : String → Option F) (store : Store F) (x : Err)
    (st : LoopState F) (fuel : Nat) :
    rowLoop parseFloat store fuel ⟨[], StreamEnd.sticky x⟩ st = none := by
  induction fuel with
  | zero => exact rowLoop_zero _ _ _ _
  | succ fuel ih => rw [rowLoop_nil_sticky, ih]

/-- A row loop that ends normally read to `io.EOF` and counted exactly the accepted
rows. -/
theorem rowLoop_done (parseFloat : String → Option F) (store : Store F) :
    ∀ (fuel : Nat) (rs : List RowRead) (e : StreamEnd) (st st2 : LoopState F),
      rowLoop parseFloat store fuel ⟨rs, e⟩ st = some (LoopResult.done st2) →
      e = StreamEnd.eof ∧
        totalsOf st2 = (rs.filterMap (acceptRow parseFloat)).foldl Totals.add (totalsOf st) := by
  intro fuel
  induction fuel with
  | zero => intro rs e st st2 h; rw [rowLoop_zero] at h; cases h
  | succ fuel ih =>
    intro rs e st st2 h
    cases rs with
    | nil =>
      cases e with
      | eof =>
        rw [rowLoop_nil_eof] at h
        cases h
        exact ⟨rfl, rfl⟩
      | sticky x =>
        rw [rowLoop_sticky] at h
        cases h
    | cons r rest =>
      rw [rowLoop_cons] at h
      cases ha : acceptRow parseFloat r with
      | none =>
        simp only [ha] at h
        rw [List.filterMap_cons_none ha]
        exact ih _ _ _ _ h
      | some row =>
        simp only [ha] at h
        rw [List.filterMap_cons_some ha, List.foldl_cons]
        cases hx : store.execErr st.execs (insertOf row) with
        | some x => simp only [hx] at h; cases h
        | none =>
          simp only [hx] at h
          have hrec := ih _ _ _ _ h
          refine ⟨hrec.1, ?_⟩
          rw [hrec.2]
          simp only [totalsOf, Totals.add, LoopState.accept, insertsOf_append, insertsOf]

/-- More fuel does not change what the row loop gives. -/
theorem rowLoop_mono (parseFloat : String → Option F) (store : Store F) :
    ∀ (fuel fuel2 : Nat) (rs : List RowRead) (e : StreamEnd) (st : LoopState F)
      (r : LoopResult F), fuel ≤ fuel2 →
      rowLoop parseFloat store fuel ⟨rs, e⟩ st = some r →
      rowLoop parseFloat store fuel2 ⟨rs, e⟩ st = some r := by
  intro fuel
  induction fuel with
  | zero => intro fuel2 rs e st r _ h; rw [rowLoop_zero] at h; cases h
  | succ fuel ih =>
    intro fuel2 rs e st r hle h
    obtain ⟨k, rfl⟩ : ∃ k, fuel2 = k + 1 := ⟨fuel2 - 1, by omega⟩
    have hk : fuel ≤ k := by omega
    cases rs with
    | nil =>
      cases e with
      | eof => rw [rowLoop_nil_eof] at h ⊢; exact h
      | sticky x => rw [rowLoop_sticky] at h; cases h
    | cons row rest =>
      rw [rowLoop_cons] at h ⊢
      cases ha : acceptRow parseFloat row with
      | none =>
        simp only [ha] at h ⊢
        exact ih _ _ _ _ _ hk h
      | some acc =>
        simp only [ha] at h ⊢
        cases hx : store.execErr st.execs (insertOf acc) with
        | some x => simp only [hx] at h ⊢; exact h
        | none =>
          simp only [hx] at h ⊢
          exact ih _ _ _ _ _ hk h

/-- On a member that ends in `io.EOF`, with a store whose `Exec` never fails, the row
loop ends normally as soon as the fuel exceeds the number of rows. -/
theorem rowLoop_complete (parseFloat : String → Option F) (store : Store F)
    (hexec : ∀ k ins, store.execErr k ins = none) :
    ∀ (rs : List RowRead) (fuel : Nat) (st : LoopState F), rs.length < fuel →
      ∃ st2, rowLoop parseFloat store fuel ⟨rs, StreamEnd.eof⟩ st = some (LoopResult.done st2) := by
  intro rs
  induction rs with
  | nil =>
    intro fuel st hlt
    obtain ⟨k, rfl⟩ : ∃ k, fuel = k + 1 := ⟨fuel - 1, by omega⟩
    exact ⟨st, rowLoop_nil_eof _ _ _ _⟩
  | cons row rest ih =>
    intro fuel st hlt
    obtain ⟨k, rfl⟩ : ∃ k, fuel = k + 1 := ⟨fuel - 1, by omega⟩
    have hk : rest.length < k := by simpa using hlt
    rw [rowLoop_cons]
    cases ha : acceptRow parseFloat row with
    | none => exact ih k st hk
    | some acc =>
      simp only [hexec]
      exact ih k _ hk

/-- The row loop only appends inserts to the trace. -/
theorem rowLoop_trace (parseFloat : String → Option F) (store : Store F) :
    ∀ (fuel : Nat) (rs : List RowRead) (e : StreamEnd) (st : LoopState F) (r : LoopResult F),
      rowLoop parseFloat store fuel ⟨rs, e⟩ st = some r →
      ∃ evs, r.state.trace = st.trace ++ evs ∧ ∀ x ∈ evs, x.inPass = true := by
  intro fuel
  induction fuel with
  | zero => intro rs e st r h; rw [rowLoop_zero] at h; cases h
  | succ fuel ih =>
    intro rs e st r h
    cases rs with
    | nil =>
      cases e with
      | eof =>
        rw [rowLoop_nil_eof] at h
        cases h
        exact ⟨[], by simp [LoopResult.state], fun x hx => by cases hx⟩
      | sticky x => rw [rowLoop_sticky] at h; cases h
    | cons row rest =>
      rw [rowLoop_cons] at h
      cases ha : acceptRow parseFloat row with
      | none =>
        simp only [ha] at h
        exact ih _ _ _ _ h
      | some acc =>
        simp only [ha] at h
        cases hx : store.execErr st.execs (insertOf acc) with
        | some x =>
          simp only [hx] at h
          cases h
          refine ⟨[Event.txExec (insertOf acc)], rfl, ?_⟩
          intro y hy
          rw [List.mem_singleton] at hy
          subst hy
          rfl
        | none =>
          simp only [hx] at h
          obtain ⟨evs, hevs, hin⟩ := ih _ _ _ _ h
          refine ⟨Event.txExec (insertOf acc) :: evs, by
            rw [hevs]; simp [LoopState.accept], ?_⟩
          intro y hy
          rcases List.mem_cons.1 hy with rfl | hy
          · rfl
          · exact hin y hy

end Rows

/-! ## The member loop -/

section Members

variable {F : Type} [Add F] {ι : Type}

theorem memberLoop_zero (parseFloat : String → Option F) (store : Store F)
    (nextFile : ι → Step ι) (it : ι) (st : LoopState F) :
    memberLoop parseFloat store nextFile 0 it st = none := by
  simp only [memberLoop]

/-- One turn of the member loop, by the result of the iterator and by whether the
member is parsed. -/
theorem memberLoop_succ (parseFloat : String → Option F) (store : Store F)
    (nextFile : ι → Step ι) (fuel : Nat) (it : ι) (st : LoopState F) :
    memberLoop parseFloat store nextFile (fuel + 1) it st =
      match (nextFile it).res with
      | NextFile.eof => some (LoopResult.done (st.log (nextFile it).events))
      | NextFile.error err =>
        some (LoopResult.fatal ("ошибка получения следующего файла: " ++ err)
          (st.log (nextFile it).events))
      | NextFile.member reader name =>
        match parsedRows (name, reader) with
        | none =>
          memberLoop parseFloat store nextFile fuel (nextFile it).state
            (st.log (nextFile it).events)
        | some rest =>
          match rowLoop parseFloat store fuel ⟨rest, reader.ending⟩
              (st.log (nextFile it).events) with
          | none => none
          | some (LoopResult.fatal e st2) => some (LoopResult.fatal e st2)
          | some (LoopResult.done st2) =>
            memberLoop parseFloat store nextFile fuel (nextFile it).state st2 := by
  simp only [memberLoop, LoopState.log]
  cases hres : (nextFile it).res with
  | eof => rfl
  | error err => rfl
  | member reader name =>
    simp only [parsedRows]
    by_cases hext : Ext name = ".csv"
    · simp only [hext, ne_eq, not_true_eq_false, if_false, if_true]
      obtain ⟨rows, e⟩ := reader
      cases rows with
      | nil => cases e <;> rfl
      | cons row rest =>
        cases row with
        | readErr x => rfl
        | record fields => rfl
    · simp only [hext, ne_eq, not_false_eq_true, if_true, if_false]

/-- A member loop that ends normally called the iterator up to its `io.EOF` and
counted exactly the accepted rows of the members it was given. -/
theorem memberLoop_done (parseFloat : String → Option F) (store : Store F)
    (nextFile : ι → Step ι) :
    ∀ (fuel : Nat) (it : ι) (st st2 : LoopState F),
      memberLoop parseFloat store nextFile fuel it st = some (LoopResult.done st2) →
      ∃ ms evs, drain nextFile fuel it = some (ms, evs) ∧
        totalsOf st2 = (acceptedRows parseFloat ms).foldl Totals.add (totalsOf st) := by
  intro fuel
  induction fuel with
  | zero => intro it st st2 h; rw [memberLoop_zero] at h; cases h
  | succ fuel ih =>
    intro it st st2 h
    rw [memberLoop_succ] at h
    cases hres : (nextFile it).res with
    | eof =>
      simp only [hres] at h
      cases h
      exact ⟨[], (nextFile it).events, by simp only [drain, hres], by
        simp only [acceptedRows, List.foldl_nil, totalsOf_log]⟩
    | error err => simp only [hres] at h; cases h
    | member reader name =>
      simp only [hres] at h
      cases hp : parsedRows (name, reader) with
      | none =>
        simp only [hp] at h
        obtain ⟨ms, evs, hd, ht⟩ := ih _ _ _ h
        refine ⟨(name, reader) :: ms, (nextFile it).events ++ evs, ?_, ?_⟩
        · simp only [drain, hres, hd]
        · rw [acceptedRows_cons_none parseFloat _ _ hp, ht, totalsOf_log]
      | some rest =>
        simp only [hp] at h
        cases hrow : rowLoop parseFloat store fuel ⟨rest, reader.ending⟩
            (st.log (nextFile it).events) with
        | none => simp only [hrow] at h; cases h
        | some r =>
          cases r with
          | fatal e st3 => simp only [hrow] at h; cases h
          | done st3 =>
            simp only [hrow] at h
            obtain ⟨ms, evs, hd, ht⟩ := ih _ _ _ h
            refine ⟨(name, reader) :: ms, (nextFile it).events ++ evs, ?_, ?_⟩
            · simp only [drain, hres, hd]
            · rw [acceptedRows_cons_some parseFloat _ _ rest hp, List.foldl_append, ht,
                (rowLoop_done parseFloat store _ _ _ _ _ hrow).2, totalsOf_log]

/-- More fuel does not change what the member loop gives. -/
theorem memberLoop_mono (parseFloat : String → Option F) (store : Store F)
    (nextFile : ι → Step ι) :
    ∀ (fuel fuel2 : Nat) (it : ι) (st : LoopState F) (r : LoopResult F), fuel ≤ fuel2 →
      memberLoop parseFloat store nextFile fuel it st = some r →
      memberLoop parseFloat store nextFile fuel2 it st = some r := by
  intro fuel
  induction fuel with
  | zero => intro fuel2 it st r _ h; rw [memberLoop_zero] at h; cases h
  | succ fuel ih =>
    intro fuel2 it st r hle h
    obtain ⟨k, rfl⟩ : ∃ k, fuel2 = k + 1 := ⟨fuel2 - 1, by omega⟩
    have hk : fuel ≤ k := by omega
    rw [memberLoop_succ] at h ⊢
    cases hres : (nextFile it).res with
    | eof => simp only [hres] at h ⊢; exact h
    | error err => simp only [hres] at h ⊢; exact h
    | member reader name =>
      simp only [hres] at h ⊢
      cases hp : parsedRows (name, reader) with
      | none =>
        simp only [hp] at h ⊢
        exact ih _ _ _ _ hk h
      | some rest =>
        simp only [hp] at h ⊢
        cases hrow : rowLoop parseFloat store fuel ⟨rest, reader.ending⟩
            (st.log (nextFile it).events) with
        | none => simp only [hrow] at h; cases h
        | some r2 =>
          rw [rowLoop_mono parseFloat store _ _ _ _ _ _ hk hrow]
          cases r2 with
          | fatal e st3 => simp only [hrow] at h ⊢; exact h
          | done st3 =>
            simp only [hrow] at h ⊢
            exact ih _ _ _ _ hk h

/-- The member loop only appends effects of the iterator and inserts to the trace. -/
theorem memberLoop_trace (parseFloat : String → Option F) (store : Store F)
    (nextFile : ι → Step ι) :
    ∀ (fuel : Nat) (it : ι) (st : LoopState F) (r : LoopResult F),
      memberLoop parseFloat store nextFile fuel it st = some r →
      ∃ evs, r.state.trace = st.trace ++ evs ∧ ∀ x ∈ evs, x.inPass = true := by
  have hiter : ∀ (l : List IterEvent), ∀ x ∈ l.map (Event.iter : IterEvent → Event F),
      x.inPass = true := by
    intro l x hx
    obtain ⟨y, -, rfl⟩ := List.mem_map.1 hx
    rfl
  intro fuel
  induction fuel with
  | zero => intro it st r h; rw [memberLoop_zero] at h; cases h
  | succ fuel ih =>
    intro it st r h
    rw [memberLoop_succ] at h
    cases hres : (nextFile it).res with
    | eof =>
      simp only [hres] at h
      cases h
      exact ⟨(nextFile it).events.map Event.iter, rfl, hiter _⟩
    | error err =>
      simp only [hres] at h
      cases h
      exact ⟨(nextFile it).events.map Event.iter, rfl, hiter _⟩
    | member reader name =>
      simp only [hres] at h
      cases hp : parsedRows (name, reader) with
      | none =>
        simp only [hp] at h
        obtain ⟨evs, hevs, hin⟩ := ih _ _ _ h
        refine ⟨(nextFile it).events.map Event.iter ++ evs, by
          rw [hevs]; simp only [LoopState.log, List.append_assoc], ?_⟩
        intro x hx
        rcases List.mem_append.1 hx with hx | hx
        · exact hiter _ x hx
        · exact hin x hx
      | some rest =>
        simp only [hp] at h
        cases hrow : rowLoop parseFloat store fuel ⟨rest, reader.ending⟩
            (st.log (nextFile it).events) with
        | none => simp only [hrow] at h; cases h
        | some r2 =>
          obtain ⟨evs1, h1, hin1⟩ := rowLoop_trace parseFloat store _ _ _ _ _ hrow
          cases r2 with
          | fatal e st3 =>
            simp only [hrow] at h
            cases h
            refine ⟨(nextFile it).events.map Event.iter ++ evs1, by
              simp only [LoopResult.state] at h1 ⊢
              rw [h1]; simp only [LoopState.log, List.append_assoc], ?_⟩
            intro x hx
            rcases List.mem_append.1 hx with hx | hx
            · exact hiter _ x hx
            · exact hin1 x hx
          | done st3 =>
            simp only [hrow] at h
            obtain ⟨evs, hevs, hin⟩ := ih _ _ _ h
            refine ⟨(nextFile it).events.map Event.iter ++ (evs1 ++ evs), by
              rw [hevs]
              simp only [LoopResult.state] at h1
              rw [h1]
              simp only [LoopState.log, List.append_assoc], ?_⟩
            intro x hx
            rcases List.mem_append.1 hx with hx | hx
            · exact hiter _ x hx
            · rcases List.mem_append.1 hx with hx | hx
              · exact hin1 x hx
              · exact hin x hx

/-- More fuel does not change what `drain` gives. -/
theorem drain_mono (next : ι → Step ι) :
    ∀ (n m : Nat) (it : ι) (r : List (String × CsvStream) × List IterEvent), n ≤ m →
      drain next n it = some r → drain next m it = some r := by
  intro n
  induction n with
  | zero => intro m it r _ h; simp only [drain] at h; cases h
  | succ n ih =>
    intro m it r hle h
    obtain ⟨k, rfl⟩ : ∃ k, m = k + 1 := ⟨m - 1, by omega⟩
    have hk : n ≤ k := by omega
    simp only [drain] at h ⊢
    cases hres : (next it).res with
    | eof => simp only [hres] at h ⊢; exact h
    | error err => simp only [hres] at h; cases h
    | member reader name =>
      simp only [hres] at h ⊢
      cases hd : drain next n (next it).state with
      | none => simp only [hd] at h; cases h
      | some r2 =>
        rw [ih _ _ _ hk hd]
        simp only [hd] at h
        exact h

/-- When the iterator reaches its `io.EOF`, every parsed member ends in `io.EOF` and no
`Exec` fails, the member loop ends normally as soon as the fuel covers the calls of
the iterator and the longest member. -/
theorem memberLoop_complete (parseFloat : String → Option F) (store : Store F)
    (nextFile : ι → Step ι) (hexec : ∀ k ins, store.execErr k ins = none) (bound : Nat) :
    ∀ (n : Nat) (it : ι) (ms : List (String × CsvStream)) (evs : List IterEvent)
      (fuel : Nat) (st : LoopState F),
      drain nextFile n it = some (ms, evs) →
      (∀ m ∈ ms, parsedRows m ≠ none → m.2.ending = StreamEnd.eof) →
      (∀ m ∈ ms, m.2.rows.length ≤ bound) → n + bound ≤ fuel →
      ∃ st2, memberLoop parseFloat store nextFile fuel it st = some (LoopResult.done st2) := by
  intro n
  induction n with
  | zero => intro it ms evs fuel st h; simp only [drain] at h; cases h
  | succ n ih =>
    intro it ms evs fuel st hd heof hlen hfuel
    obtain ⟨k, rfl⟩ : ∃ k, fuel = k + 1 := ⟨fuel - 1, by omega⟩
    have hk : n + bound ≤ k := by omega
    rw [memberLoop_succ]
    simp only [drain] at hd
    cases hres : (nextFile it).res with
    | eof => exact ⟨_, rfl⟩
    | error err => simp only [hres] at hd; cases hd
    | member reader name =>
      simp only [hres] at hd ⊢
      cases hrec : drain nextFile n (nextFile it).state with
      | none => simp only [hrec] at hd; cases hd
      | some r2 =>
        obtain ⟨ms2, evs2⟩ := r2
        simp only [hrec, Option.some.injEq, Prod.mk.injEq] at hd
        obtain ⟨hms, -⟩ := hd
        subst hms
        have heof2 : ∀ m ∈ ms2, parsedRows m ≠ none → m.2.ending = StreamEnd.eof :=
          fun m hm => heof m (List.mem_cons_of_mem _ hm)
        have hlen2 : ∀ m ∈ ms2, m.2.rows.length ≤ bound :=
          fun m hm => hlen m (List.mem_cons_of_mem _ hm)
        cases hp : parsedRows (name, reader) with
        | none => exact ih _ _ _ _ _ hrec heof2 hlen2 hk
        | some rest =>
          have hend : reader.ending = StreamEnd.eof :=
            heof (name, reader) (List.mem_cons_self _ _) (by rw [hp]; exact Option.some_ne_none _)
          have hrows : rest.length < k := by
            have h1 : reader.rows.length ≤ bound := hlen (name, reader) (List.mem_cons_self _ _)
            have h2 : rest.length < reader.rows.length := by
              simp only [parsedRows] at hp
              split at hp
              · split at hp
                · next fields tl heq =>
                    simp only [Option.some.injEq] at hp
                    subst hp
                    rw [heq]
                    simp
                · cases hp
              · cases hp
            omega
          obtain ⟨st3, h3⟩ := rowLoop_complete parseFloat store hexec rest k
            (st.log (nextFile it).events) hrows
          simp only [hend, h3]
          exact ih _ _ _ _ _ hrec heof2 hlen2 hk

end Members

/-! ## The counters -/

theorem mem_addCategory (cats : List String) (c x : String) :
    x ∈ addCategory cats c ↔ x ∈ cats ∨ x = c := by
  unfold addCategory
  by_cases h : c ∈ cats
  · rw [if_pos h]
    constructor
    · exact Or.inl
    · rintro (hx | rfl)
      · exact hx
      · exact h
  · rw [if_neg h]
    simp

theorem nodup_addCategory (cats : List String) (c : String) (h : cats.Nodup) :
    (addCategory cats c).Nodup := by
  unfold addCategory
  by_cases hc : c ∈ cats
  · rw [if_pos hc]; exact h
  · rw [if_neg hc]
    exact List.Nodup.append h (List.nodup_singleton c) (by simpa using hc)

section Counters

variable {F : Type} [Add F]

theorem foldl_add_items (rows : List (List String × F)) :
    ∀ t : Totals F, (rows.foldl Totals.add t).items = t.items + rows.length := by
  induction rows with
  | nil => intro t; rfl
  | cons r rows ih =>
    intro t
    rw [List.foldl_cons, ih]
    simp only [Totals.add, List.length_cons]
    omega

theorem foldl_add_totalPrice (rows : List (List String × F)) :
    ∀ t : Totals F, (rows.foldl Totals.add t).totalPrice
      = rows.foldl (fun total r => total + r.2) t.totalPrice := by
  induction rows with
  | nil => intro t; rfl
  | cons r rows ih =>
    intro t
    rw [List.foldl_cons, List.foldl_cons, ih]
    rfl

theorem foldl_add_inserts (rows : List (List String × F)) :
    ∀ t : Totals F, (rows.foldl Totals.add t).inserts = t.inserts ++ rows.map insertOf := by
  induction rows with
  | nil => intro t; simp
  | cons r rows ih =>
    intro t
    rw [List.foldl_cons, ih]
    simp [Totals.add]

theorem foldl_add_categories (rows : List (List String × F)) :
    ∀ (t : Totals F) (c : String), c ∈ (rows.foldl Totals.add t).categories ↔
      c ∈ t.categories ∨ ∃ r ∈ rows, r.1.getD 2 "" = c := by
  induction rows with
  | nil =>
    intro t c
    simp only [List.foldl_nil, List.not_mem_nil, false_and, exists_false, or_false]
  | cons r rows ih =>
    intro t c
    rw [List.foldl_cons, ih]
    simp only [Totals.add, mem_addCategory, List.mem_cons, exists_eq_or_imp]
    constructor
    · rintro ((h | h) | h)
      · exact Or.inl h
      · exact Or.inr (Or.inl h.symm)
      · exact Or.inr (Or.inr h)
    · rintro (h | h | h)
      · exact Or.inl (Or.inl h)
      · exact Or.inl (Or.inr h.symm)
      · exact Or.inr h

theorem foldl_add_nodup (rows : List (List String × F)) :
    ∀ t : Totals F, t.categories.Nodup → (rows.foldl Totals.add t).categories.Nodup := by
  induction rows with
  | nil => intro t h; exact h
  | cons r rows ih =>
    intro t h
    rw [List.foldl_cons]
    exact ih _ (nodup_addCategory _ _ h)

end Counters

/-! ## `processArchive` -/

section Archive

variable {F : Type} [Zero F] [Add F] {ι : Type}

/-- When `Begin` fails nothing else is done. -/
theorem processArchive_beginErr (parseFloat : String → Option F) (store : Store F)
    (nextFile : ι → Step ι) (fuel : Nat) (it : ι) (e : Err) (hb : store.beginErr = some e) :
    processArchive parseFloat store nextFile fuel it
      = some ⟨0, [], 0, some ("ошибка начала транзакции: " ++ e), [Event.txBegin]⟩ := by
  simp only [processArchive, hb]

/-- After a successful `Begin` the deferred function finds the outer `err` still `nil`
and calls `Commit`, however the loops ended; the error of `Commit` does not reach the
results. -/
theorem processArchive_begun (parseFloat : String → Option F) (store : Store F)
    (nextFile : ι → Step ι) (fuel : Nat) (it : ι) (hb : store.beginErr = none) :
    processArchive parseFloat store nextFile fuel it =
      match memberLoop parseFloat store nextFile fuel it ⟨0, [], 0, 0, [Event.txBegin]⟩ with
      | none => none
      | some (LoopResult.fatal e st) => some ⟨0, [], 0, some e, st.trace ++ [Event.txCommit]⟩
      | some (LoopResult.done st) =>
        some ⟨st.items, st.categories, st.totalPrice, none, st.trace ++ [Event.txCommit]⟩ := by
  have hd : (deferred store (none : Option Err)).1 = [Event.txCommit] := by
    unfold deferred
    cases store.commitErr <;> rfl
  simp only [processArchive, hb, hd]

/-- More fuel does not change what `processArchive` gives. -/
theorem processArchive_mono (parseFloat : String → Option F) (store : Store F)
    (nextFile : ι → Step ι) (fuel fuel2 : Nat) (it : ι) (out : Outcome F) (hle : fuel ≤ fuel2)
    (h : processArchive parseFloat store nextFile fuel it = some out) :
    processArchive parseFloat store nextFile fuel2 it = some out := by
  cases hb : store.beginErr with
  | some e =>
    rw [processArchive_beginErr parseFloat store nextFile _ it e hb] at h ⊢
    exact h
  | none =>
    rw [processArchive_begun parseFloat store nextFile _ it hb] at h ⊢
    cases hm : memberLoop parseFloat store nextFile fuel it ⟨0, [], 0, 0, [Event.txBegin]⟩ with
    | none => simp only [hm] at h; cases h
    | some r =>
      rw [memberLoop_mono parseFloat store nextFile _ _ _ _ _ hle hm]
      simp only [hm] at h
      exact h

/-- Every trace of `processArchive` starts with `Begin`, and what follows are effects
of the iterator, inserts and the finalizer. -/
theorem processArchive_trace (parseFloat : String → Option F) (store : Store F)
    (nextFile : ι → Step ι) (fuel : Nat) (it : ι) (out : Outcome F)
    (h : processArchive parseFloat store nextFile fuel it = some out) :
    ∃ rest, out.trace = Event.txBegin :: rest ∧ ∀ x ∈ rest, x.inPass = true := by
  have hfin : ∀ (evs : List (Event F)), (∀ x ∈ evs, x.inPass = true) →
      ∀ x ∈ evs ++ [Event.txCommit], x.inPass = true := by
    intro evs hin x hx
    rcases List.mem_append.1 hx with hx | hx
    · exact hin x hx
    · rw [List.mem_singleton] at hx
      subst hx
      rfl
  cases hb : store.beginErr with
  | some e =>
    rw [processArchive_beginErr parseFloat store nextFile _ it e hb] at h
    cases h
    exact ⟨[], rfl, fun x hx => by cases hx⟩
  | none =>
    rw [processArchive_begun parseFloat store nextFile _ it hb] at h
    cases hm : memberLoop parseFloat store nextFile fuel it ⟨0, [], 0, 0, [Event.txBegin]⟩ with
    | none => simp only [hm] at h; cases h
    | some r =>
      obtain ⟨evs, hevs, hin⟩ := memberLoop_trace parseFloat store nextFile _ _ _ _ hm
      cases r with
      | fatal e st =>
        simp only [hm, Option.some.injEq] at h
        subst h
        simp only [LoopResult.state] at hevs
        exact ⟨evs ++ [Event.txCommit], by rw [hevs]; rfl, hfin evs hin⟩
      | done st =>
        simp only [hm, Option.some.injEq] at h
        subst h
        simp only [LoopResult.state] at hevs
        exact ⟨evs ++ [Event.txCommit], by rw [hevs]; rfl, hfin evs hin⟩

/-- A pass without error called the iterator up to its `io.EOF`. -/
theorem processArchive_drained (parseFloat : String → Option F) (store : Store F)
    (nextFile : ι → Step ι) (fuel : Nat) (it : ι) (out : Outcome F)
    (h : processArchive parseFloat store nextFile fuel it = some out) (herr : out.err = none) :
    ∃ ms evs, drain nextFile fuel it = some (ms, evs) := by
  cases hb : store.beginErr with
  | some e =>
    rw [processArchive_beginErr parseFloat store nextFile _ it e hb] at h
    cases h
    cases herr
  | none =>
    rw [processArchive_begun parseFloat store nextFile _ it hb] at h
    cases hm : memberLoop parseFloat store nextFile fuel it ⟨0, [], 0, 0, [Event.txBegin]⟩ with
    | none => simp only [hm] at h; cases h
    | some r =>
      cases r with
      | fatal e st =>
        simp only [hm, Option.some.injEq] at h
        subst h
        cases herr
      | done st =>
        obtain ⟨ms, evs, hd, -⟩ := memberLoop_done parseFloat store nextFile _ _ _ _ hm
        exact ⟨ms, evs, hd⟩

/-- A pass without error counted exactly the accepted rows of the members the
iterator gives up to its `io.EOF`, and issued their inserts in that order. -/
theorem processArchive_totals (parseFloat : String → Option F) (store : Store F)
    (nextFile : ι → Step ι) (n fuel : Nat) (it : ι) (ms : List (String × CsvStream))
    (evs : List IterEvent) (out : Outcome F) (hd : drain nextFile n it = some (ms, evs))
    (h : processArchive parseFloat store nextFile fuel it = some out) (herr : out.err = none) :
    (⟨out.items, out.categories, out.totalPrice, insertsOf out.trace⟩ : Totals F)
      = (acceptedRows parseFloat ms).foldl Totals.add ⟨0, [], 0, []⟩ := by
  cases hb : store.beginErr with
  | some e =>
    rw [processArchive_beginErr parseFloat store nextFile _ it e hb] at h
    cases h
    cases herr
  | none =>
    rw [processArchive_begun parseFloat store nextFile _ it hb] at h
    cases hm : memberLoop parseFloat store nextFile fuel it ⟨0, [], 0, 0, [Event.txBegin]⟩ with
    | none => simp only [hm] at h; cases h
    | some r =>
      cases r with
      | fatal e st =>
        simp only [hm, Option.some.injEq] at h
        subst h
        cases herr
      | done st =>
        simp only [hm, Option.some.injEq] at h
        subst h
        obtain ⟨ms2, evs2, hd2, ht⟩ := memberLoop_done parseFloat store nextFile _ _ _ _ hm
        have h1 := drain_mono nextFile n (max n fuel) it _ (le_max_left _ _) hd
        have h2 := drain_mono nextFile fuel (max n fuel) it _ (le_max_right _ _) hd2
        rw [h1] at h2
        simp only [Option.some.injEq, Prod.mk.injEq] at h2
        obtain ⟨hms, -⟩ := h2
        subst hms
        simp only [totalsOf, insertsOf] at ht
        simp only [insertsOf_append, insertsOf, List.append_nil]
        exact ht

/-- With a store that does not fail and members that end in `io.EOF`, the pass returns
without error once the fuel covers the calls of the iterator and the longest member. -/
theorem processArchive_returns (parseFloat : String → Option F) (store : Store F)
    (nextFile : ι → Step ι) (n fuel : Nat) (it : ι) (ms : List (String × CsvStream))
    (evs : List IterEvent) (hd : drain nextFile n it = some (ms, evs))
    (hb : store.beginErr = none) (hexec : ∀ k ins, store.execErr k ins = none)
    (heof : ∀ m ∈ ms, parsedRows m ≠ none → m.2.ending = StreamEnd.eof)
    (hfuel : n + maxRows ms ≤ fuel) :
    ∃ out, processArchive parseFloat store nextFile fuel it = some out ∧ out.err = none := by
  have hlen : ∀ (l : List (String × CsvStream)), ∀ m ∈ l, m.2.rows.length ≤ maxRows l := by
    intro l
    induction l with
    | nil => intro m hm; cases hm
    | cons a l ih =>
      intro m hm
      simp only [maxRows]
      rcases List.mem_cons.1 hm with rfl | hm
      · exact le_max_left _ _
      · exact le_trans (ih m hm) (le_max_right _ _)
  obtain ⟨st2, h2⟩ := memberLoop_complete parseFloat store nextFile hexec (maxRows ms) n it ms evs
    fuel ⟨0, [], 0, 0, [Event.txBegin]⟩ hd heof (hlen ms) hfuel
  rw [processArchive_begun parseFloat store nextFile _ it hb, h2]
  exact ⟨_, rfl, rfl⟩

/-- After a successful `Begin`, the last effect of every returning pass is `Commit`. -/
theorem processArchive_ends_with_commit (parseFloat : String → Option F) (store : Store F)
    (nextFile : ι → Step ι) (fuel : Nat) (it : ι) (out : Outcome F)
    (hb : store.beginErr = none)
    (h : processArchive parseFloat store nextFile fuel it = some out) :
    ∃ evs, out.trace = evs ++ [Event.txCommit] := by
  rw [processArchive_begun parseFloat store nextFile _ it hb] at h
  cases hm : memberLoop parseFloat store nextFile fuel it ⟨0, [], 0, 0, [Event.txBegin]⟩ with
  | none => simp only [hm] at h; cases h
  | some r =>
    cases r with
    | fatal e st => simp only [hm, Option.some.injEq] at h; subst h; exact ⟨_, rfl⟩
    | done st => simp only [hm, Option.some.injEq] at h; subst h; exact ⟨_, rfl⟩

/-- More fuel does not change what `processZip` gives. -/
theorem processZip_mono (parseFloat : String → Option F) (store : Store F) (fuel fuel2 : Nat)
    (file : ZipFile) (out : Outcome F) (hle : fuel ≤ fuel2)
    (h : processZip parseFloat store fuel file = some out) :
    processZip parseFloat store fuel2 file = some out := by
  unfold processZip at h ⊢
  cases ho : file.openErr with
  | some e => simp only [ho] at h ⊢; exact h
  | none =>
    cases hs : file.statErr with
    | some e => simp only [ho, hs] at h ⊢; exact h
    | none =>
      cases hdir : file.directory with
      | error e => simp only [ho, hs, hdir] at h ⊢; exact h
      | ok files =>
        simp only [ho, hs, hdir] at h ⊢
        obtain ⟨inner, hin, hout⟩ := withPrefix_eq_some _ _ _ h
        rw [processArchive_mono parseFloat store zipNext fuel fuel2 _ inner hle hin, hout]
        rfl

/-- More fuel does not change what `processTar` gives. -/
theorem processTar_mono (parseFloat : String → Option F) (store : Store F) (fuel fuel2 : Nat)
    (file : TarFile) (out : Outcome F) (hle : fuel ≤ fuel2)
    (h : processTar parseFloat store fuel file = some out) :
    processTar parseFloat store fuel2 file = some out := by
  unfold processTar at h ⊢
  cases ho : file.openErr with
  | some e => simp only [ho] at h ⊢; exact h
  | none =>
    simp only [ho] at h ⊢
    obtain ⟨inner, hin, hout⟩ := withPrefix_eq_some _ _ _ h
    rw [processArchive_mono parseFloat store tarNext fuel fuel2 _ inner hle hin, hout]
    rfl

end Archive

/-! ## Transaction outcome -/

/-- C1, at a failing input.  A tar archive whose member `a.csv` gives one insert and
whose next header is corrupt: the iterator returns an error, `processTar` returns
that error, and the transaction is finalized by `Commit` after the insert, with no
`Rollback`.  Likewise when the `Exec` of the first row of a zip member fails. -/
theorem processArchive_commits_after_fatal_error (n : Nat) :
    processTar parseDigits okStore (n + 3) brokenTar
      = some ⟨0, [], 0, some "ошибка получения следующего файла: archive/tar: invalid tar header",
          [Event.osOpen, Event.txBegin, Event.iter IterEvent.tarNext, Event.txExec widgetInsert,
            Event.iter IterEvent.tarNext, Event.txCommit]⟩ ∧
    processZip parseDigits execFailStore (n + 2) oneRowZip
      = some ⟨0, [], 0, some "ошибка записи в базу данных: pq: value too long",
          [Event.osOpen, Event.fileStat, Event.zipNewReader, Event.txBegin,
            Event.iter (IterEvent.zipOpen "a.csv"), Event.txExec widgetInsert, Event.txCommit]⟩ :=
  ⟨processTar_mono _ _ 3 (n + 3) _ _ (by omega) (by decide),
    processZip_mono _ _ 2 (n + 2) _ _ (by omega) (by decide)⟩

/-- C2, at a failing input.  A zip archive with one good row and a store whose
`Commit` fails: `processZip` returns the statistics with a `nil` error. -/
theorem processArchive_drops_commit_error (n : Nat) :
    commitFailStore.commitErr = some "driver: bad connection" ∧
    processZip parseDigits commitFailStore (n + 3) oneRowZip
      = some ⟨1, ["Tools"], 10, none,
          [Event.osOpen, Event.fileStat, Event.zipNewReader, Event.txBegin,
            Event.iter (IterEvent.zipOpen "a.csv"), Event.txExec widgetInsert, Event.txCommit]⟩ :=
  ⟨rfl, processZip_mono _ _ 3 (n + 3) _ _ (by omega) (by decide)⟩

/-! ## Aggregates and inserts -/

section Aggregate

variable {F : Type} [Zero F] [Add F] {ι : Type}

/-- C3.  Every pass that returns without error called the iterator up to its `io.EOF`,
and for the members `ms` the iterator gave: `itemCount` is the number of accepted rows
of `ms`, the keys of the category map are exactly their field 2 values, and
`totalPrice` is the left-to-right sum of their parsed prices from 0.  A row with
fewer than 5 fields or an unparseable price is not an accepted row.  Such passes
exist: when the iterator gives `ms` and then `io.EOF`, the store does not fail and the
parsed members end in `io.EOF`, enough fuel gives a result without error. -/
theorem processArchive_aggregate (parseFloat : String → Option F) (store : Store F)
    (nextFile : ι → Step ι) (it : ι) :
    (∀ fuel out, processArchive parseFloat store nextFile fuel it = some out → out.err = none →
      ∃ ms evs, drain nextFile fuel it = some (ms, evs) ∧
        out.items = (acceptedRows parseFloat ms).length ∧
        (∀ c, c ∈ out.categories ↔ ∃ r ∈ acceptedRows parseFloat ms, r.1.getD 2 "" = c) ∧
        out.categories.Nodup ∧
        out.totalPrice = sumPrices (acceptedRows parseFloat ms)) ∧
    (∀ fields, fields.length < 5 ∨ parseFloat (fields.getD 3 "") = none →
      acceptRow parseFloat (RowRead.record fields) = none) ∧
    (∀ n ms evs, drain nextFile n it = some (ms, evs) →
      store.beginErr = none → (∀ k ins, store.execErr k ins = none) →
      (∀ m ∈ ms, parsedRows m ≠ none → m.2.ending = StreamEnd.eof) →
      ∀ fuel, n + maxRows ms ≤ fuel →
        ∃ out, processArchive parseFloat store nextFile fuel it = some out ∧ out.err = none) := by
  refine ⟨?_, ?_, ?_⟩
  · intro fuel out h herr
    obtain ⟨ms, evs, hd⟩ := processArchive_drained parseFloat store nextFile fuel it out h herr
    have ht := processArchive_totals parseFloat store nextFile fuel fuel it ms evs out hd h herr
    refine ⟨ms, evs, hd, ?_, ?_, ?_, ?_⟩
    · have := congrArg Totals.items ht
      rw [foldl_add_items] at this
      simpa using this
    · intro c
      have := congrArg Totals.categories ht
      simp only at this
      rw [this, foldl_add_categories]
      simp only [List.not_mem_nil, false_or]
    · have := congrArg Totals.categories ht
      simp only at this
      rw [this]
      exact foldl_add_nodup _ _ List.nodup_nil
    · have := congrArg Totals.totalPrice ht
      rw [foldl_add_totalPrice] at this
      exact this
  · intro fields h
    by_cases hlen : fields.length < 5
    · exact acceptRow_short parseFloat fields hlen
    · rcases h with h | h
      · exact absurd h hlen
      · exact acceptRow_bad parseFloat fields hlen h
  · intro n ms evs hd hb hexec heof fuel hfuel
    exact processArchive_returns parseFloat store nextFile n fuel it ms evs hd hb hexec heof hfuel

/-- C3 on a zip directory with a text file, a member with rejected rows, a member
named in upper case and a member in a folder: the pass returns, and three rows are
accepted, of total price 39. -/
theorem processArchive_aggregate_witness :
    drain zipNext 11 ⟨sampleFiles, 0⟩ = some (sampleMembers, sampleOpens) ∧
    (acceptedRows parseDigits sampleMembers).length = 3 ∧
    sumPrices (acceptedRows parseDigits sampleMembers) = 39 ∧
    ∃ out, processArchive parseDigits okStore zipNext 11 ⟨sampleFiles, 0⟩ = some out ∧
      out.err = none ∧ out.items = 3 ∧ out.totalPrice = 39 ∧
      (∀ c, c ∈ out.categories ↔ ∃ r ∈ acceptedRows parseDigits sampleMembers, r.1.getD 2 "" = c) := by
  have hd5 : drain zipNext 5 ⟨sampleFiles, 0⟩ = some (sampleMembers, sampleOpens) := by decide
  have hd : drain zipNext 11 ⟨sampleFiles, 0⟩ = some (sampleMembers, sampleOpens) := by decide
  have hlen : (acceptedRows parseDigits sampleMembers).length = 3 := by decide
  have hsum : sumPrices (acceptedRows parseDigits sampleMembers) = 39 := by decide
  have hthm := processArchive_aggregate parseDigits okStore zipNext ⟨sampleFiles, 0⟩
  obtain ⟨out, hout, herr⟩ :=
    hthm.2.2 5 sampleMembers sampleOpens hd5 rfl (fun _ _ => rfl) (by decide) 11 (by decide)
  obtain ⟨ms, evs, hd2, hitems, hcats, -, htotal⟩ := hthm.1 11 out hout herr
  rw [hd] at hd2
  simp only [Option.some.injEq, Prod.mk.injEq] at hd2
  obtain ⟨rfl, -⟩ := hd2
  exact ⟨hd, hlen, hsum, out, hout, herr, hitems.trans hlen, htotal.trans hsum, hcats⟩

/-- C5.  Every pass that returns without error called the iterator up to its `io.EOF`,
and for the members `ms` the iterator gave: the insert statements of the trace are
exactly the accepted rows of `ms` in encounter order, each with field 1 as name, field
2 as category, the parsed field 3 as price and field 4 as create_date, and their number
is the returned `itemCount`.  Such passes exist: when the iterator gives `ms` and then
`io.EOF`, the store does not fail and the parsed members end in `io.EOF`, enough fuel
gives a result without error. -/
theorem processArchive_inserts (parseFloat : String → Option F) (store : Store F)
    (nextFile : ι → Step ι) (it : ι) :
    (∀ fuel out, processArchive parseFloat store nextFile fuel it = some out → out.err = none →
      ∃ ms evs, drain nextFile fuel it = some (ms, evs) ∧
        insertsOf out.trace = (acceptedRows parseFloat ms).map
          (fun r => (⟨r.1.getD 1 "", r.1.getD 2 "", r.2, r.1.getD 4 ""⟩ : Insert F)) ∧
        (insertsOf out.trace).length = out.items) ∧
    (∀ n ms evs, drain nextFile n it = some (ms, evs) →
      store.beginErr = none → (∀ k ins, store.execErr k ins = none) →
      (∀ m ∈ ms, parsedRows m ≠ none → m.2.ending = StreamEnd.eof) →
      ∀ fuel, n + maxRows ms ≤ fuel →
        ∃ out, processArchive parseFloat store nextFile fuel it = some out ∧ out.err = none) := by
  refine ⟨?_, ?_⟩
  · intro fuel out h herr
    obtain ⟨ms, evs, hd⟩ := processArchive_drained parseFloat store nextFile fuel it out h herr
    have ht := processArchive_totals parseFloat store nextFile fuel fuel it ms evs out hd h herr
    have hins := congrArg Totals.inserts ht
    rw [foldl_add_inserts] at hins
    simp only [List.nil_append] at hins
    have hitems := congrArg Totals.items ht
    rw [foldl_add_items] at hitems
    simp only [Nat.zero_add] at hitems
    refine ⟨ms, evs, hd, ?_, ?_⟩
    · rw [hins]
      rfl
    · rw [hins, hitems, List.length_map]
  · intro n ms evs hd hb hexec heof fuel hfuel
    exact processArchive_returns parseFloat store nextFile n fuel it ms evs hd hb hexec heof hfuel

/-- C5 on the sample zip directory: the pass returns and the three accepted rows are
inserted in order. -/
theorem processArchive_inserts_witness :
    drain zipNext 11 ⟨sampleFiles, 0⟩ = some (sampleMembers, sampleOpens) ∧
    ∃ out, processArchive parseDigits okStore zipNext 11 ⟨sampleFiles, 0⟩ = some out ∧
      out.err = none ∧ insertsOf out.trace = [widgetInsert, gadgetInsert, widgetInsert] ∧
      (insertsOf out.trace).length = out.items := by
  have hd5 : drain zipNext 5 ⟨sampleFiles, 0⟩ = some (sampleMembers, sampleOpens) := by decide
  have hd : drain zipNext 11 ⟨sampleFiles, 0⟩ = some (sampleMembers, sampleOpens) := by decide
  have hthm := processArchive_inserts parseDigits okStore zipNext ⟨sampleFiles, 0⟩
  obtain ⟨out, hout, herr⟩ :=
    hthm.2 5 sampleMembers sampleOpens hd5 rfl (fun _ _ => rfl) (by decide) 11 (by decide)
  obtain ⟨ms, evs, hd2, hins, hcount⟩ := hthm.1 11 out hout herr
  rw [hd] at hd2
  simp only [Option.some.injEq, Prod.mk.injEq] at hd2
  obtain ⟨rfl, -⟩ := hd2
  exact ⟨hd, out, hout, herr, hins.trans (by decide), hcount⟩

end Aggregate

/-! ## Member names -/

/-- C4, at failing inputs.  The names `A.CSV` and `prices.Csv` pass the filter of the
iterators, the members are returned to `processArchive`, and its test
`filepath.Ext(name) != ".csv"` skips them: a header and one well-formed row give
`itemCount` 0 and no insert, where the same member named `a.csv` gives 1. -/
theorem uppercase_member_is_not_ingested (n : Nat) :
    isCsvName "A.CSV" = true ∧ Ext "A.CSV" = ".CSV" ∧
    isCsvName "prices.Csv" = true ∧ Ext "prices.Csv" = ".Csv" ∧
    processZip parseDigits okStore (n + 2) upperZip
      = some ⟨0, [], 0, none,
          [Event.osOpen, Event.fileStat, Event.zipNewReader, Event.txBegin,
            Event.iter (IterEvent.zipOpen "A.CSV"), Event.txCommit]⟩ ∧
    processTar parseDigits okStore (n + 2) mixedCaseTar
      = some ⟨0, [], 0, none,
          [Event.osOpen, Event.txBegin, Event.iter IterEvent.tarNext,
            Event.iter IterEvent.tarNext, Event.txCommit]⟩ ∧
    processZip parseDigits okStore (n + 3) oneRowZip
      = some ⟨1, ["Tools"], 10, none,
          [Event.osOpen, Event.fileStat, Event.zipNewReader, Event.txBegin,
            Event.iter (IterEvent.zipOpen "a.csv"), Event.txExec widgetInsert, Event.txCommit]⟩ :=
  ⟨by decide, by decide, by decide, by decide,
    processZip_mono _ _ 2 (n + 2) _ _ (by omega) (by decide),
    processTar_mono _ _ 2 (n + 2) _ _ (by omega) (by decide),
    processZip_mono _ _ 3 (n + 3) _ _ (by omega) (by decide)⟩

/-! ## The handler -/

section Handler

variable {F : Type} [Zero F] [Add F]

/-- C6 as stated fails: with `type=x/y` the temporary file `temp.x/y` cannot be
created and the handler answers 500, not 400. -/
theorem UploadPrices_unsupported_type_not_400 :
    slashUpload.typeParam ≠ "" ∧ slashUpload.typeParam ≠ "zip" ∧ slashUpload.typeParam ≠ "tar" ∧
    UploadPrices parseDigits okStore 10 slashUpload = some ⟨500, none, [Event.osCreate]⟩ ∧
    (500 : Nat) ≠ 400 :=
  ⟨by decide, by decide, by decide, by decide, by decide⟩

/-- C6, amended.  A request whose `type` is neither empty, `zip` nor `tar` is answered
for every fuel, with status 400 or 500 and no statistics: 500 exactly when the upload
was read from the form and creating or filling the temporary file failed.  Its trace
holds nothing but the creation and filling of the temporary file: `processZip` and
`processTar` are not called, no transaction is begun, no member is iterated and no
insert is issued. -/
theorem UploadPrices_unsupported_type (parseFloat : String → Option F) (store : Store F)
    (fuel : Nat) (r : Upload) (h1 : r.typeParam ≠ "") (h2 : r.typeParam ≠ "zip")
    (h3 : r.typeParam ≠ "tar") :
    ∃ res, UploadPrices parseFloat store fuel r = some res ∧ res.body = none ∧
      (res.status = 400 ∨ res.status = 500) ∧
      (res.status = 500 ↔ r.formFileErr = none ∧ (r.createErr ≠ none ∨ r.copyErr ≠ none)) ∧
      ∀ e ∈ res.trace, e = Event.osCreate ∨ e = Event.ioCopy := by
  unfold UploadPrices
  simp only [h1, if_false, h2, h3]
  cases hf : r.formFileErr with
  | some e => exact ⟨_, rfl, rfl, Or.inl rfl, by simp, by simp⟩
  | none =>
    cases hc : r.createErr with
    | some e => exact ⟨_, rfl, rfl, Or.inr rfl, by simp, by simp⟩
    | none =>
      cases hy : r.copyErr with
      | some e => exact ⟨_, rfl, rfl, Or.inr rfl, by simp, by simp⟩
      | none => exact ⟨_, rfl, rfl, Or.inl rfl, by simp, by simp⟩

/-- C6, amended, on a request with `type=rar` whose upload is stored: status 400. -/
theorem UploadPrices_unsupported_type_witness :
    ∃ res, UploadPrices parseDigits okStore 0 rarUpload = some res ∧ res.body = none ∧
      (res.status = 400 ∨ res.status = 500) ∧
      (res.status = 500 ↔
        rarUpload.formFileErr = none ∧ (rarUpload.createErr ≠ none ∨ rarUpload.copyErr ≠ none)) ∧
      ∀ e ∈ res.trace, e = Event.osCreate ∨ e = Event.ioCopy :=
  UploadPrices_unsupported_type parseDigits okStore 0 rarUpload (by decide) (by decide) (by decide)

end Handler

/-! ## The iterators -/

theorem zipNext_skip (files : List ZipEntry) (header : ZipEntry) (rest : List ZipEntry) (i : Nat)
    (hdrop : files.drop i = header :: rest) (hname : isCsvName header.name = false) :
    zipNext ⟨files, i⟩ = zipNext ⟨files, i + 1⟩ := by
  have hrest : files.drop (i + 1) = rest := by
    rw [← List.drop_drop 1 i files, hdrop]
    rfl
  simp only [zipNext, hdrop, hrest, zipScan, hname, Bool.false_eq_true, if_false]

theorem zipNext_open (files : List ZipEntry) (name : String) (rc : CsvStream)
    (rest : List ZipEntry) (i : Nat) (hdrop : files.drop i = ⟨name, Except.ok rc⟩ :: rest)
    (hname : isCsvName name = true) :
    zipNext ⟨files, i⟩ = ⟨NextFile.member rc name, [IterEvent.zipOpen name], ⟨files, i + 1⟩⟩ := by
  simp only [zipNext, hdrop, zipScan, hname, if_true]

theorem zipNext_end (files : List ZipEntry) (i : Nat) (hdrop : files.drop i = []) :
    zipNext ⟨files, i⟩ = ⟨NextFile.eof, [], ⟨files, i⟩⟩ := by
  simp only [zipNext, hdrop, zipScan]

theorem drain_congr {ι : Type} (next : ι → Step ι) (n : Nat) (a b : ι) (h : next a = next b) :
    drain next (n + 1) a = drain next (n + 1) b := by
  simp only [drain, h]

theorem drain_zip_from (entries : List (String × CsvStream)) :
    ∀ (rest : List (String × CsvStream)) (i k : Nat),
      (entries.map fun p => (⟨p.1, Except.ok p.2⟩ : ZipEntry)).drop i
        = rest.map (fun p => (⟨p.1, Except.ok p.2⟩ : ZipEntry)) →
      drain zipNext (rest.length + 1 + k)
          ⟨entries.map fun p => (⟨p.1, Except.ok p.2⟩ : ZipEntry), i⟩
        = some (rest.filter (fun p => isCsvName p.1),
            (rest.filter (fun p => isCsvName p.1)).map (fun p => IterEvent.zipOpen p.1)) := by
  intro rest
  induction rest with
  | nil =>
    intro i k hdrop
    have hnext := zipNext_end _ i hdrop
    simp only [List.length_nil, Nat.zero_add, Nat.add_comm 1 k, drain, hnext, List.filter_nil,
      List.map_nil]
  | cons p rest ih =>
    intro i k hdrop
    have hrest : (entries.map fun p => (⟨p.1, Except.ok p.2⟩ : ZipEntry)).drop (i + 1)
        = rest.map (fun p => (⟨p.1, Except.ok p.2⟩ : ZipEntry)) := by
      rw [← List.drop_drop 1 i, hdrop]
      rfl
    cases hname : isCsvName p.1 with
    | false =>
      have hskip := zipNext_skip _ _ _ i hdrop hname
      have hlen : (p :: rest).length + 1 + k = (rest.length + 1 + k) + 1 := by
        simp only [List.length_cons]; omega
      rw [hlen, drain_congr zipNext _ _ _ hskip]
      have := ih (i + 1) (k + 1) hrest
      rw [show rest.length + 1 + (k + 1) = rest.length + 1 + k + 1 by omega] at this
      rw [this, List.filter_cons_of_neg (by simp [hname])]
    | true =>
      have hopen := zipNext_open _ p.1 p.2 _ i hdrop hname
      have hlen : (p :: rest).length + 1 + k = (rest.length + 1 + k) + 1 := by
        simp only [List.length_cons]; omega
      rw [hlen]
      simp only [drain, hopen, ih (i + 1) k hrest]
      rw [List.filter_cons_of_pos (by simp [hname])]
      rfl

/-- C7.  On a zip directory every entry of which opens, the successive calls of the
zip closure up to its first `io.EOF` return exactly the entries whose lowercased name
ends in `.csv`, once each and in directory order, and the entries opened are exactly
those: no other entry is opened.  The calls needed never exceed the number of
entries plus one. -/
theorem zipNext_yields_csv_entries (entries : List (String × CsvStream)) (k : Nat) :
    drain zipNext (entries.length + 1 + k)
        ⟨entries.map fun p => (⟨p.1, Except.ok p.2⟩ : ZipEntry), 0⟩
      = some (entries.filter (fun p => isCsvName p.1),
          (entries.filter (fun p => isCsvName p.1)).map (fun p => IterEvent.zipOpen p.1)) :=
  drain_zip_from entries entries 0 k rfl

theorem afterCalls_fixed {ι : Type} (next : ι → Step ι) (s : ι) (h : (next s).state = s) :
    ∀ n, afterCalls next n s = s := by
  intro n
  induction n with
  | zero => rfl
  | succ n ih => rw [afterCalls, h, ih]

theorem zipScan_eof (files : List ZipEntry) :
    ∀ (rest : List ZipEntry) (i : Nat), (zipScan files rest i).res = NextFile.eof →
      zipScan files rest i = ⟨NextFile.eof, [], ⟨files, i + rest.length⟩⟩ := by
  intro rest
  induction rest with
  | nil => intro i _; rfl
  | cons header rest ih =>
    intro i h
    simp only [zipScan] at h ⊢
    cases hname : isCsvName header.name with
    | true =>
      simp only [hname, if_true] at h
      cases hc : header.content with
      | error e => simp only [hc] at h; cases h
      | ok rc => simp only [hc] at h; cases h
    | false =>
      simp only [hname, Bool.false_eq_true, if_false] at h ⊢
      rw [ih (i + 1) h, List.length_cons]
      simp only [Nat.add_assoc, Nat.add_comm 1]

theorem zipNext_eof_fixed (it : ZipIter) (h : (zipNext it).res = NextFile.eof) :
    zipNext (zipNext it).state = ⟨NextFile.eof, [], (zipNext it).state⟩ := by
  have hscan := zipScan_eof it.files (it.files.drop it.i) it.i h
  have hstate : zipNext it = ⟨NextFile.eof, [], ⟨it.files, it.i + (it.files.drop it.i).length⟩⟩ :=
    hscan
  rw [hstate]
  apply zipNext_end
  apply List.drop_eq_nil_of_le
  rw [List.length_drop]
  omega

theorem tarScan_eof :
    ∀ (pending : List TarStep) (evs : List IterEvent), (tarScan pending evs).res = NextFile.eof →
      (tarScan pending evs).state.foundEOF = true := by
  intro pending
  induction pending with
  | nil => intro evs _; rfl
  | cons step rest ih =>
    intro evs h
    cases step with
    | eof => rfl
    | fail e => simp only [tarScan] at h; cases h
    | header name content =>
      simp only [tarScan] at h ⊢
      cases hname : isCsvName name with
      | true => simp only [hname, if_true] at h; cases h
      | false =>
        simp only [hname, Bool.false_eq_true, if_false] at h ⊢
        exact ih _ h

theorem tarNext_found (it : TarIter) (h : it.foundEOF = true) :
    tarNext it = ⟨NextFile.eof, [], it⟩ := by
  simp only [tarNext, h, if_true]

theorem tarNext_eof_fixed (it : TarIter) (h : (tarNext it).res = NextFile.eof) :
    tarNext (tarNext it).state = ⟨NextFile.eof, [], (tarNext it).state⟩ := by
  apply tarNext_found
  cases hf : it.foundEOF with
  | true => rw [tarNext_found it hf]; exact hf
  | false =>
    have heq : tarNext it = tarScan it.pending [] := by
      simp only [tarNext, hf, Bool.false_eq_true, if_false]
    rw [heq] at h ⊢
    exact tarScan_eof _ _ h

/-- C8.  Once a call of the zip closure, or of the tar closure, has returned
`io.EOF`, every later call returns `io.EOF` again, with no effect (no `Open`, no
`tarReader.Next`) and the captured state unchanged. -/
theorem iterators_stay_exhausted :
    (∀ it : ZipIter, (zipNext it).res = NextFile.eof → ∀ n,
      zipNext (afterCalls zipNext n (zipNext it).state)
        = ⟨NextFile.eof, [], (zipNext it).state⟩) ∧
    (∀ it : TarIter, (tarNext it).res = NextFile.eof → ∀ n,
      tarNext (afterCalls tarNext n (tarNext it).state)
        = ⟨NextFile.eof, [], (tarNext it).state⟩) := by
  constructor
  · intro it h n
    have hfix := zipNext_eof_fixed it h
    rw [afterCalls_fixed zipNext _ (by rw [hfix]) n]
    exact hfix
  · intro it h n
    have hfix := tarNext_eof_fixed it h
    rw [afterCalls_fixed tarNext _ (by rw [hfix]) n]
    exact hfix

/-- C8 on a zip directory without a matching entry, and on a tar reader whose `Next`
would fail after it reported the end: the third call after the `io.EOF` is `io.EOF`. -/
theorem iterators_stay_exhausted_witness :
    (zipNext textOnlyZip).res = NextFile.eof ∧
    (zipNext (afterCalls zipNext 2 (zipNext textOnlyZip).state)).res = NextFile.eof ∧
    (zipNext (afterCalls zipNext 2 (zipNext textOnlyZip).state)).events = [] ∧
    (tarNext failAfterEndTar).res = NextFile.eof ∧
    tarNext (afterCalls tarNext 2 (tarNext failAfterEndTar).state)
      = ⟨NextFile.eof, [], ⟨[TarStep.fail "read error"], true⟩⟩ :=
  ⟨by decide,
    congrArg Step.res (iterators_stay_exhausted.1 textOnlyZip (by decide) 2),
    congrArg Step.events (iterators_stay_exhausted.1 textOnlyZip (by decide) 2),
    by decide,
    iterators_stay_exhausted.2 failAfterEndTar (by decide) 2⟩

/-! ## Order of `Begin` and the archive -/

section Order

variable {F : Type} [Zero F] [Add F]

/-- C9 as stated fails: on a file that is not a zip archive `processZip` opens the
file, reads its directory and reports the error with no transaction begun. -/
theorem processZip_malformed_without_begin :
    processZip parseDigits okStore 10 malformedZip
      = some ⟨0, [], 0, some "zip: not a valid zip file",
          [Event.osOpen, Event.fileStat, Event.zipNewReader]⟩ ∧
    Event.txBegin ∉ [(Event.osOpen : Event Nat), Event.fileStat, Event.zipNewReader] :=
  ⟨rfl, by decide⟩

/-- C9, amended.  Both functions open the archive file first; `processZip` then reads
its size and its directory.  When the file cannot be opened, or for zip its size or
directory cannot be read, the call returns that error, for every fuel, with no
transaction begun and nothing else done.  Otherwise `Begin` is the next effect of
every call that returns, and all that follows it is an effect of the iterator (a
member open, a `tarReader.Next`), an insert or the finalizer: each member open, each
reading of a tar header and each insert comes after `Begin`. -/
theorem begin_follows_archive_open (parseFloat : String → Option F) (store : Store F)
    (fuel : Nat) :
    (∀ file : ZipFile,
      (∀ e, file.openErr = some e →
        processZip parseFloat store fuel file = some ⟨0, [], 0, some e, [Event.osOpen]⟩) ∧
      (∀ e, file.openErr = none → file.statErr = some e →
        processZip parseFloat store fuel file
          = some ⟨0, [], 0, some e, [Event.osOpen, Event.fileStat]⟩) ∧
      (∀ e, file.openErr = none → file.statErr = none → file.directory = Except.error e →
        processZip parseFloat store fuel file
          = some ⟨0, [], 0, some e, [Event.osOpen, Event.fileStat, Event.zipNewReader]⟩) ∧
      (∀ files out, file.openErr = none → file.statErr = none →
        file.directory = Except.ok files →
        processZip parseFloat store fuel file = some out →
        ∃ rest, out.trace
            = [Event.osOpen, Event.fileStat, Event.zipNewReader, Event.txBegin] ++ rest ∧
          ∀ x ∈ rest, x.inPass = true)) ∧
    (∀ file : TarFile,
      (∀ e, file.openErr = some e →
        processTar parseFloat store fuel file = some ⟨0, [], 0, some e, [Event.osOpen]⟩) ∧
      (∀ out, file.openErr = none → processTar parseFloat store fuel file = some out →
        ∃ rest, out.trace = [Event.osOpen, Event.txBegin] ++ rest ∧
          ∀ x ∈ rest, x.inPass = true)) := by
  constructor
  · intro file
    refine ⟨?_, ?_, ?_, ?_⟩
    · intro e ho
      simp only [processZip, ho]
    · intro e ho hs
      simp only [processZip, ho, hs]
    · intro e ho hs hdir
      simp only [processZip, ho, hs, hdir]
    · intro files out ho hs hdir h
      simp only [processZip, ho, hs, hdir] at h
      obtain ⟨inner, hin, hout⟩ := withPrefix_eq_some _ _ _ h
      obtain ⟨rest, hrest, hpass⟩ := processArchive_trace parseFloat store zipNext _ _ _ hin
      refine ⟨rest, ?_, hpass⟩
      rw [hout]
      simp only [hrest]
      rfl
  · intro file
    refine ⟨?_, ?_⟩
    · intro e ho
      simp only [processTar, ho]
    · intro out ho h
      simp only [processTar, ho] at h
      obtain ⟨inner, hin, hout⟩ := withPrefix_eq_some _ _ _ h
      obtain ⟨rest, hrest, hpass⟩ := processArchive_trace parseFloat store tarNext _ _ _ hin
      refine ⟨rest, ?_, hpass⟩
      rw [hout]
      simp only [hrest]
      rfl

/-- C9, amended, on a tar file that cannot be opened and on a zip archive with one
good row. -/
theorem begin_follows_archive_open_witness :
    processTar parseDigits okStore 3 missingTar
      = some ⟨0, [], 0, some "open temp.tar: no such file or directory", [Event.osOpen]⟩ ∧
    processZip parseDigits okStore 3 oneRowZip
      = some ⟨1, ["Tools"], 10, none,
          [Event.osOpen, Event.fileStat, Event.zipNewReader, Event.txBegin,
            Event.iter (IterEvent.zipOpen "a.csv"), Event.txExec widgetInsert, Event.txCommit]⟩ ∧
    ∃ rest, [Event.osOpen, Event.fileStat, Event.zipNewReader, Event.txBegin,
          Event.iter (IterEvent.zipOpen "a.csv"), Event.txExec widgetInsert, Event.txCommit]
        = [Event.osOpen, Event.fileStat, Event.zipNewReader, Event.txBegin] ++ rest ∧
      ∀ x ∈ rest, x.inPass = true :=
  have h : processZip parseDigits okStore 3 oneRowZip
      = some ⟨1, ["Tools"], 10, none,
          [Event.osOpen, Event.fileStat, Event.zipNewReader, Event.txBegin,
            Event.iter (IterEvent.zipOpen "a.csv"), Event.txExec widgetInsert, Event.txCommit]⟩ := by
    decide
  ⟨((begin_follows_archive_open parseDigits okStore 3).2 missingTar).1 _ rfl,
    h,
    ((begin_follows_archive_open parseDigits okStore 3).1 oneRowZip).2.2.2 _ _ rfl rfl rfl h⟩

end Order

/-! ## Termination of the row loop -/

theorem processArchive_truncated {ι : Type} (next : ι → Step ι) (it it2 : ι)
    (evs : List IterEvent) (h : next it = ⟨NextFile.member truncatedCsv "a.csv", evs, it2⟩)
    (fuel : Nat) : processArchive parseDigits okStore next fuel it = none := by
  rw [processArchive_begun parseDigits okStore next fuel it rfl]
  cases fuel with
  | zero => rw [memberLoop_zero]
  | succ fuel =>
    have hp : parsedRows ("a.csv", truncatedCsv) = some [] := by decide
    rw [memberLoop_succ, h]
    simp only [hp]
    have hs := rowLoop_sticky parseDigits okStore "unexpected EOF"
      (LoopState.log ⟨0, [], 0, 0, [Event.txBegin]⟩ evs) fuel
    have he : truncatedCsv.ending = StreamEnd.sticky "unexpected EOF" := rfl
    rw [he, hs]

/-- C10, at failing inputs.  On a tar archive, or a zip archive, whose member `a.csv`
is cut short after its header row, so that every later read of the CSV reader fails,
no amount of fuel lets `processTar` or `processZip` return: the row loop never ends. -/
theorem truncated_member_never_returns (fuel : Nat) :
    processTar parseDigits okStore fuel truncatedTar = none ∧
    processZip parseDigits okStore fuel truncatedZip = none := by
  constructor
  · have h := processArchive_truncated tarNext ⟨[TarStep.header "a.csv" truncatedCsv], false⟩ ⟨[], false⟩
      [IterEvent.tarNext] rfl fuel
    simp only [processTar, truncatedTar, h, withPrefix, Option.map_none']
  · have h := processArchive_truncated zipNext ⟨[⟨"a.csv", Except.ok truncatedCsv⟩], 0⟩
      ⟨[⟨"a.csv", Except.ok truncatedCsv⟩], 1⟩ [IterEvent.zipOpen "a.csv"] rfl fuel
    simp only [processZip, truncatedZip, h, withPrefix, Option.map_none']

end Prices
